import Mathlib

/-!
A shallow embedding of `src/notebooks/mesa_reader.py` (class `MesaInfo`,
method `__init__` together with the helper behaviour of `numpy.loadtxt`
that it relies on), and proofs about the claims on its specification.

Modelling conventions:
* A file system is a finite association list from path to the decoded
  list of text lines (one entry per line, line terminators stripped;
  `str.strip()` before `split()` makes trailing whitespace irrelevant).
* Numeric cells are modelled over `Int`: the ordering column
  (`model_number`) is integral, and no claim depends on fractional
  float tokens, so the float domain of `numpy.loadtxt` is restricted to
  its integer fragment.  `int(...)` in the source is then the identity.
* Python exceptions are modelled by the inductive type `Err`;
  `raise FileNotFoundError` with no argument is `Err.fileNotFound none`
  (the exception carries no filename).  In the spec's taxonomy the
  `IndexError` / `ValueError` / `KeyError` raised while decoding a file
  are all "ParseError" conditions, and `FileNotFoundError` is "NotFound".
* `numpy.loadtxt(fname, skiprows=6, unpack=True)` is modelled including
  its dimension squeezing (default `ndmin=0`): a 0-row table yields an
  empty 1-D array, a 1-row or 1-column table yields a 1-D array, and
  only a table with at least 2 rows and 2 columns yields the transposed
  2-D matrix.  Blank lines and text after a comment character are
  skipped, ragged rows raise `ValueError`, and `gzip` transparency of
  `numpy.loadtxt` means both encodings read the same decoded lines.
-/

namespace Mesa

/-- Python's `str.split()` / `bytes.split()` with no separator:
split on runs of whitespace, discarding empty tokens. -/
def splitWsAux : List Char → List Char → List String
  | [], cur => if cur.isEmpty then [] else [String.mk cur.reverse]
  | c :: rest, cur =>
    if c.isWhitespace then
      if cur.isEmpty then splitWsAux rest []
      else String.mk cur.reverse :: splitWsAux rest []
    else splitWsAux rest (c :: cur)

/-- `s.strip().split()` of the source (stripping is subsumed by
whitespace-run splitting). -/
def pySplit (s : String) : List String := splitWsAux s.toList []

/-- Drop everything from the first comment character on
(`numpy.loadtxt`'s default comment handling). -/
def stripComment (s : String) : String :=
  String.mk (s.toList.takeWhile (fun c => c ≠ '#'))

/-- Boolean "the first list is an initial segment of the second". -/
def startsWithSeq : List Char → List Char → Bool
  | [], _ => true
  | _ :: _, [] => false
  | c :: cs, x :: xs => c = x && startsWithSeq cs xs

/-- Boolean substring containment of `sub` in the second list,
Python's `sub in s`. -/
def containsSeq (sub : List Char) : List Char → Bool
  | [] => sub.isEmpty
  | x :: xs => startsWithSeq sub (x :: xs) || containsSeq sub xs

/-- Python's `sub in s` on strings (`'history' in self.fname`). -/
def strContainsSub (s sub : String) : Bool := containsSeq sub.toList s.toList

/-- The Python exceptions the loader can raise.  `fileNotFound` carries
the optional filename argument of `FileNotFoundError` (the source raises
it bare, so with `none`). -/
inductive Err where
  | fileNotFound (name : Option String)
  | indexError
  | keyError (key : String)
  | valueError
  deriving DecidableEq, Repr

/-- The spec's error taxonomy: every load-time failure other than
`FileNotFoundError` is a "ParseError" condition. -/
def isParseErr : Err → Bool
  | .fileNotFound _ => false
  | _ => true

/-- A file system: paths mapped to decoded line lists. -/
def FS : Type := List (String × List String)

/-- `Path(p).is_file()` / reading the file at `p`. -/
def listLookup : FS → String → Option (List String)
  | [], _ => none
  | (p, ls) :: rest, q => if p = q then some ls else listLookup rest q

/-- Python `dict` insertion: overwrite in place if the key exists,
else append (insertion order preserved). -/
def dictInsert {β : Type} : List (String × β) → String → β → List (String × β)
  | [], k, v => [(k, v)]
  | (k', v') :: rest, k, v =>
    if k' = k then (k', v) :: rest else (k', v') :: dictInsert rest k v

/-- Python `dict` lookup (`d[k]`, as an `Option`). -/
def dictGet {β : Type} (k : String) : List (String × β) → Option β
  | [] => none
  | (k', v) :: rest => if k' = k then some v else dictGet k rest

/-- Lines 76–85 of the source: try the exact path, else the path with
`'.gz'` appended (flagged compressed), else `raise FileNotFoundError`
(bare, no filename argument). -/
def resolvePath (fs : FS) (filename : String) : Except Err (String × Bool) :=
  if (listLookup fs filename).isSome then .ok (filename, false)
  else if (listLookup fs (filename ++ ".gz")).isSome then .ok (filename ++ ".gz", true)
  else .error (.fileNotFound none)

/-- `file.readline()` for the `i`-th line: past end of file it returns
the empty string. -/
def getLine (lines : List String) (i : Nat) : String := (lines.get? i).getD ""

/-- `bytes.decode('utf8')` on a token: the identity on the decoded-text
model of file contents. -/
def decodeUtf8 (s : String) : String := s

/-- The per-line tokenization of the source: `line.strip().split()`,
with each token additionally passed through `.decode('utf8')` on the
gzip branch. -/
def readTokens (gz : Bool) (s : String) : List String :=
  if gz then (pySplit s).map decodeUtf8 else pySplit s

/-- Header field names: tokens of line 1. -/
def headerNamesOf (gz : Bool) (lines : List String) : List String :=
  readTokens gz (getLine lines 1)

/-- Header field values: tokens of line 2. -/
def headerValuesOf (gz : Bool) (lines : List String) : List String :=
  readTokens gz (getLine lines 2)

/-- Column names: tokens of line 5. -/
def colNamesOf (gz : Bool) (lines : List String) : List String :=
  readTokens gz (getLine lines 5)

/-- Line 110 of the source:
`for i, name in enumerate(header_names): self.header[name] = header_values[i]`.
Raises `IndexError` at the first name whose index has no value; extra
values are silently ignored. -/
def buildHeaderAux (acc : List (String × String)) :
    List String → List String → Except Err (List (String × String))
  | [], _ => .ok acc
  | _ :: _, [] => .error .indexError
  | n :: ns, v :: vs => buildHeaderAux (dictInsert acc n v) ns vs

/-- The header dictionary built from the name and value token lists. -/
def buildHeader (ns vs : List String) : Except Err (List (String × String)) :=
  buildHeaderAux [] ns vs

/-- A `numpy` array as the loader sees it: 0-d scalar, 1-D vector, or
2-D matrix (list of 1-D rows). -/
inductive NDArray where
  | scalar (v : Int)
  | vec (xs : List Int)
  | mat (rows : List (List Int))
  deriving DecidableEq, Repr

/-- The whitespace token lists of the data lines, with comments
stripped and blank lines dropped (`numpy.loadtxt` behaviour). -/
def dataTokenLines (lines : List String) : List (List String) :=
  (lines.map (fun l => pySplit (stripComment l))).filter (fun t => !t.isEmpty)

/-- Digit-string accumulation for `parseCell`. -/
def digitsToNatAux (acc : Nat) : List Char → Option Nat
  | [] => some acc
  | c :: cs =>
    if c.isDigit then digitsToNatAux (acc * 10 + (c.toNat - '0'.toNat)) cs else none

/-- A non-empty all-digit character list as a natural number. -/
def digitsToNat : List Char → Option Nat
  | [] => none
  | l => digitsToNatAux 0 l

/-- One numeric token, in the integer fragment of `numpy.loadtxt`'s
float parsing: an optional minus sign followed by digits. -/
def parseCell (s : String) : Option Int :=
  match s.toList with
  | '-' :: rest => (digitsToNat rest).map (fun n => -(n : Int))
  | l => (digitsToNat l).map (fun n => (n : Int))

/-- One data row: every token must parse. -/
def parseRowTokens (toks : List String) : Option (List Int) := toks.mapM parseCell

/-- The raw row-major matrix read by `numpy.loadtxt` from the data
lines: a `ValueError` on a non-numeric token or on rows of differing
token counts. -/
def loadtxtRows (lines : List String) : Except Err (List (List Int)) :=
  match (dataTokenLines lines).mapM parseRowTokens with
  | none => .error .valueError
  | some [] => .ok []
  | some (r :: rest) =>
    if rest.all (fun q => q.length == r.length) then .ok (r :: rest)
    else .error .valueError

/-- `numpy.loadtxt(fname, skiprows=6, unpack=True)` applied to the
lines from index 6 on, including the default `ndmin=0` squeezing:
no rows give an empty 1-D array; a single row gives that row 1-D (a
0-d scalar if it is a single value); a single column gives the column
1-D; otherwise the transpose of the row matrix (column `i` of the file
is row `i` of the result). -/
def npLoadtxtUnpack (lines : List String) : Except Err NDArray :=
  match loadtxtRows lines with
  | .error e => .error e
  | .ok [] => .ok (.vec [])
  | .ok [r] =>
    match r with
    | [v] => .ok (.scalar v)
    | _ => .ok (.vec r)
  | .ok (r :: r' :: rest) =>
    if r.length = 1 then .ok (.vec ((r :: r' :: rest).map (fun row => row.headD 0)))
    else .ok (.mat ((List.range r.length).map
        (fun i => (r :: r' :: rest).map (fun row => row.getD i 0))))

/-- `file_data[i]`: indexing a 0-d array raises `IndexError`; a 1-D
array yields the scalar element; a 2-D array yields the 1-D row. -/
def ndIndexNat (nd : NDArray) (i : Nat) : Except Err NDArray :=
  match nd with
  | .scalar _ => .error .indexError
  | .vec xs =>
    match xs.get? i with
    | some v => .ok (.scalar v)
    | none => .error .indexError
  | .mat rows =>
    match rows.get? i with
    | some r => .ok (.vec r)
    | none => .error .indexError

/-- Line 127 of the source:
`for i, name in enumerate(col_names): self.data_dict[name] = np.array(file_data[i])`
(`np.array` copies, which is the identity here). -/
def buildDataAux (fd : NDArray) :
    List String → Nat → List (String × NDArray) → Except Err (List (String × NDArray))
  | [], _, acc => .ok acc
  | n :: ns, i, acc =>
    match ndIndexNat fd i with
    | .error e => .error e
    | .ok c => buildDataAux fd ns (i + 1) (dictInsert acc n c)

/-- The data dictionary built from the unpacked array and the column
names. -/
def buildData (fd : NDArray) (colNames : List String) :
    Except Err (List (String × NDArray)) :=
  buildDataAux fd colNames 0 []

/-- The backward scan of lines 144–148 of the source, over the column
read last-to-first: `true` marks a row for removal.  The running
`last_model` is updated only on kept rows. -/
def maskRevAux (lastv : Int) : List Int → List Bool
  | [] => []
  | x :: xs => if x ≥ lastv then true :: maskRevAux lastv xs
               else false :: maskRevAux x xs

/-- Lines 142–148 of the source: the removal mask over the ordering
column, one Boolean per row in file order; the last row is never
marked. -/
def computeMask (ms : List Int) : List Bool :=
  match ms.reverse with
  | [] => []
  | lastv :: revRest => (maskRevAux lastv revRest).reverse ++ [false]

/-- Keep the entries whose mask Boolean is `false`
(`np.ma.masked_array(xs, mask).compressed()` on aligned lengths). -/
def applyMask : List Bool → List Int → List Int
  | b :: bs, x :: xs => if b then applyMask bs xs else x :: applyMask bs xs
  | _, _ => []

/-- `np.ma.masked_array(nd, mask=mask).compressed()`: requires a 1-D
array whose length matches the mask, else a `ValueError`-style failure. -/
def maskedCompress (mask : List Bool) : NDArray → Except Err NDArray
  | .vec xs =>
    if xs.length = mask.length then .ok (.vec (applyMask mask xs))
    else .error .valueError
  | _ => .error .valueError

/-- Lines 150–151 of the source: re-filter `data_dict[name]` by the
mask for every column name, in order. -/
def maskAllCols (mask : List Bool) :
    List String → List (String × NDArray) → Except Err (List (String × NDArray))
  | [], d => .ok d
  | n :: ns, d =>
    match dictGet n d with
    | none => .error (.keyError n)
    | some nd =>
      match maskedCompress mask nd with
      | .error e => .error e
      | .ok nd' => maskAllCols mask ns (dictInsert d n nd')

/-- Lines 141–148 of the source: fetch `data_dict['model_number']`
(`KeyError` if absent), take its last element (`IndexError` on a 0-d
array or an empty one), and compute the removal mask. -/
def dedupMask (d : List (String × NDArray)) : Except Err (List Bool) :=
  match dictGet "model_number" d with
  | none => .error (.keyError "model_number")
  | some (.vec xs) =>
    match xs.getLast? with
    | none => .error .indexError
    | some _ => .ok (computeMask xs)
  | some _ => .error .indexError

/-- The whole restart-deduplication pass (lines 129–151). -/
def stageDedup (colNames : List String) (d : List (String × NDArray)) :
    Except Err (List (String × NDArray)) :=
  match dedupMask d with
  | .error e => .error e
  | .ok mask => maskAllCols mask colNames d

/-- Lines 90–127 of the source: header dictionary, column names and
pre-deduplication data dictionary of a resolved file. -/
def stageParse (gz : Bool) (lines : List String) :
    Except Err (List (String × String) × List String × List (String × NDArray)) :=
  match buildHeader (headerNamesOf gz lines) (headerValuesOf gz lines) with
  | .error e => .error e
  | .ok header =>
    match npLoadtxtUnpack (lines.drop 6) with
    | .error e => .error e
    | .ok fd =>
      match buildData fd (colNamesOf gz lines) with
      | .error e => .error e
      | .ok d => .ok (header, colNamesOf gz lines, d)

/-- The loaded object: resolved filename, header dictionary, and data
dictionary (the source's `fname`, `header`, `data_dict`). -/
structure MesaInfo where
  fname : String
  header : List (String × String)
  data_dict : List (String × NDArray)
  deriving DecidableEq, Repr

/-- `MesaInfo.__init__`: resolve the path, parse header and table, and
run the deduplication pass exactly when the resolved filename contains
the substring `'history'`.  The `prune_data` flag is accepted (default
`True` in the source) but never read by the body. -/
def loadFile (fs : FS) (filename : String) (prune_data : Bool) : Except Err MesaInfo :=
  match resolvePath fs filename with
  | .error e => .error e
  | .ok (fname, gz) =>
    let lines := (listLookup fs fname).getD []
    match stageParse gz lines with
    | .error e => .error e
    | .ok (header, cns, d) =>
      if strContainsSub fname "history" then
        match stageDedup cns d with
        | .error e => .error e
        | .ok d' => .ok ⟨fname, header, d'⟩
      else .ok ⟨fname, header, d⟩

/-! ### Concrete example file systems used by witnesses and
counterexamples -/

/-- A history log re-climbing through steps 2,3,4 after a restart. -/
def fsC2 : FS := [("history.data",
  ["banner", "star_mass", "1", "", "cols", "model_number star_age",
   "1 10", "2 20", "3 30", "4 40", "2 21", "3 31", "4 41", "5 51", "6 61"])]

/-- A history log with one superseded restart segment. -/
def fsC1w : FS := [("history_w.data",
  ["banner", "a", "1", "", "cols", "model_number star_age",
   "1 1", "2 2", "3 3", "2 4", "4 5"])]

/-- A profile log whose header value line has one token more than its
header name line. -/
def fsC3x : FS := [("p3.data",
  ["banner", "a", "1 2", "", "cols", "c1 c2", "1 2", "3 4"])]

/-- Lines whose header name line has more tokens than its value line. -/
def linesC3w : List String := ["banner", "a b", "1", "", "cols", "c1", "1", "2"]

/-- The file system holding `linesC3w`. -/
def fsC3w : FS := [("w3.data", linesC3w)]

/-- Lines with distinct header names and a matching value count. -/
def linesC3z : List String := ["banner", "alpha beta", "3 4", "", "cols", "c1", "1", "2"]

/-- A history log without a `model_number` column. -/
def fsC4 : FS := [("historyX.data",
  ["banner", "a", "1", "", "cols", "c1 c2", "1 2", "3 4"])]

/-- A history log with exactly one data row. -/
def fsOneRow : FS := [("history1.data",
  ["banner", "a", "1", "", "cols", "model_number star_age", "1 0"])]

/-- A history log with no data rows. -/
def fsZeroRow : FS := [("history0.data",
  ["banner", "a", "1", "", "cols", "model_number star_age"])]

/-- A profile log with a single column and two data rows. -/
def fsC8 : FS := [("profile1.data",
  ["banner", "a", "1", "", "cols", "temp", "10", "20"])]

/-- A profile log with two columns and two data rows. -/
def fsC8w : FS := [("profile2.data",
  ["banner", "a", "1", "", "cols", "c1 c2", "1 2", "3 4"])]

/-- Shared decoded content for the plain/gzip comparison. -/
def linesC9 : List String :=
  ["banner", "a", "1", "", "cols", "c1 c2", "1 2", "3 4"]

/-- The content of `linesC9` stored as a plain file. -/
def fsC9a : FS := [("p9.data", linesC9)]

/-- The content of `linesC9` stored only as a compressed file. -/
def fsC9b : FS := [("p9.data.gz", linesC9)]

/-- A file present under its exact name. -/
def fsC7a : FS := [("a.log", ["x"])]

/-- A file present only under its compressed name. -/
def fsC7b : FS := [("b.log.gz", ["x"])]

/-- A parsed table with an ordering column and one other column. -/
def dExA : List (String × NDArray) :=
  [("model_number", .vec [1, 2]), ("luminosity", .vec [5, 6])]

/-- A table with the same ordering column but different companions. -/
def dExB : List (String × NDArray) :=
  [("radius", .vec [9, 9]), ("model_number", .vec [1, 2]), ("age", .vec [7, 8])]

/-! ### Dictionary lemmas -/

theorem dictGet_dictInsert {β : Type} (d : List (String × β)) (n k : String) (v : β) :
    dictGet k (dictInsert d n v) = if n = k then some v else dictGet k d := by
  induction d with
  | nil => simp [dictInsert, dictGet]
  | cons p rest ih =>
    obtain ⟨k', v'⟩ := p
    by_cases hkn : k' = n
    · subst hkn
      by_cases hk : k' = k <;> simp [dictInsert, dictGet, hk]
    · by_cases hk : k' = k
      · subst hk
        have : ¬ n = k' := fun h => hkn h.symm
        simp [dictInsert, dictGet, hkn, this]
      · simp [dictInsert, dictGet, hkn, hk, ih]

theorem mem_dictInsert {β : Type} {d : List (String × β)} {k : String} {v : β}
    {p : String × β} : p ∈ dictInsert d k v → p = (k, v) ∨ p ∈ d := by
  induction d with
  | nil => intro h; simpa [dictInsert] using h
  | cons q rest ih =>
    obtain ⟨k', v'⟩ := q
    intro h
    by_cases hk : k' = k
    · subst hk
      simp only [dictInsert, if_true, eq_self_iff_true, List.mem_cons] at h
      rcases h with h | h
      · exact Or.inl (by simpa using h)
      · exact Or.inr (List.mem_cons_of_mem _ h)
    · simp only [dictInsert, if_neg hk, List.mem_cons] at h
      rcases h with h | h
      · exact Or.inr (by simp [h])
      · rcases ih h with h' | h'
        · exact Or.inl h'
        · exact Or.inr (List.mem_cons_of_mem _ h')

theorem dictInsert_fresh {β : Type} {d : List (String × β)} {k : String} (v : β)
    (h : dictGet k d = none) : dictInsert d k v = d ++ [(k, v)] := by
  induction d with
  | nil => simp [dictInsert]
  | cons q rest ih =>
    obtain ⟨k', v'⟩ := q
    by_cases hk : k' = k
    · simp [dictGet, hk] at h
    · simp only [dictGet, if_neg hk] at h
      simp [dictInsert, hk, ih h]

theorem dictGet_append {β : Type} (d d' : List (String × β)) (k : String) :
    dictGet k (d ++ d') =
      match dictGet k d with
      | some v => some v
      | none => dictGet k d' := by
  induction d with
  | nil => simp [dictGet]
  | cons q rest ih =>
    obtain ⟨k', v'⟩ := q
    by_cases hk : k' = k <;> simp [dictGet, hk, ih]

/-! ### `applyMask` lemmas -/

theorem applyMask_append {bs₁ : List Bool} {xs₁ : List Int}
    (h : bs₁.length = xs₁.length) (bs₂ : List Bool) (xs₂ : List Int) :
    applyMask (bs₁ ++ bs₂) (xs₁ ++ xs₂) = applyMask bs₁ xs₁ ++ applyMask bs₂ xs₂ := by
  induction bs₁ generalizing xs₁ with
  | nil =>
    have : xs₁ = [] := by
      cases xs₁ with
      | nil => rfl
      | cons _ _ => simp at h
    subst this; simp [applyMask]
  | cons b bs ih =>
    cases xs₁ with
    | nil => simp at h
    | cons x xs =>
      simp only [List.length_cons, Nat.succ.injEq] at h
      by_cases hb : b <;> simp [applyMask, hb, ih h]

theorem applyMask_reverse {bs : List Bool} {xs : List Int}
    (h : bs.length = xs.length) :
    applyMask bs.reverse xs.reverse = (applyMask bs xs).reverse := by
  induction bs generalizing xs with
  | nil =>
    have : xs = [] := by
      cases xs with
      | nil => rfl
      | cons _ _ => simp at h
    subst this; simp [applyMask]
  | cons b bs ih =>
    cases xs with
    | nil => simp at h
    | cons x xs =>
      simp only [List.length_cons, Nat.succ.injEq] at h
      have hl : bs.reverse.length = xs.reverse.length := by simp [h]
      simp only [List.reverse_cons]
      rw [applyMask_append hl]
      by_cases hb : b <;> simp [applyMask, hb, ih h]

theorem applyMask_sublist (bs : List Bool) (xs : List Int) :
    (applyMask bs xs).Sublist xs := by
  induction bs generalizing xs with
  | nil => simp [applyMask]
  | cons b bs ih =>
    cases xs with
    | nil => simp [applyMask]
    | cons x xs =>
      by_cases hb : b
      · simpa [applyMask, hb] using (ih xs).trans (List.sublist_cons_self x xs)
      · simpa [applyMask, hb] using List.Sublist.cons₂ x (ih xs)

theorem applyMask_length_le (bs : List Bool) (xs : List Int) :
    (applyMask bs xs).length ≤ bs.length := by
  induction bs generalizing xs with
  | nil => simp [applyMask]
  | cons b bs ih =>
    cases xs with
    | nil => simp [applyMask]
    | cons x xs =>
      by_cases hb : b
      · simpa [applyMask, hb] using Nat.le_succ_of_le (ih xs)
      · simpa [applyMask, hb, Nat.succ_le_succ_iff] using ih xs

theorem applyMask_full_length {bs : List Bool} {xs : List Int}
    (hlen : xs.length = bs.length)
    (h : (applyMask bs xs).length = bs.length) :
    ∀ b ∈ bs, b = false := by
  induction bs generalizing xs with
  | nil => simp
  | cons b bs ih =>
    cases xs with
    | nil => simp at hlen
    | cons x xs =>
      simp only [List.length_cons, Nat.succ.injEq] at hlen
      by_cases hb : b
      · exfalso
        rw [show applyMask (b :: bs) (x :: xs) = applyMask bs xs by
              simp [applyMask, hb]] at h
        have := applyMask_length_le bs xs
        simp only [List.length_cons] at h
        omega
      · intro c hc
        rcases List.mem_cons.mp hc with hc | hc
        · subst hc; simpa using hb
        · rw [show applyMask (b :: bs) (x :: xs) = x :: applyMask bs xs by
              simp [applyMask, hb]] at h
          simp only [List.length_cons, Nat.succ.injEq] at h
          exact ih hlen h c hc

theorem applyMask_all_false {bs : List Bool} {xs : List Int}
    (hall : ∀ b ∈ bs, b = false) (hlen : xs.length = bs.length) :
    applyMask bs xs = xs := by
  induction bs generalizing xs with
  | nil =>
    have : xs = [] := by
      cases xs with
      | nil => rfl
      | cons _ _ => simp at hlen
    simp [this, applyMask]
  | cons b bs ih =>
    cases xs with
    | nil => simp at hlen
    | cons x xs =>
      simp only [List.length_cons, Nat.succ.injEq] at hlen
      have hb : b = false := hall b (List.mem_cons_self _ _)
      subst hb
      have hstep : applyMask (false :: bs) (x :: xs) = x :: applyMask bs xs := by
        simp [applyMask]
      rw [hstep, ih (fun c hc => hall c (List.mem_cons_of_mem _ hc)) hlen]

/-! ### Backward-scan mask lemmas -/

theorem maskRevAux_length (lastv : Int) (l : List Int) :
    (maskRevAux lastv l).length = l.length := by
  induction l generalizing lastv with
  | nil => simp [maskRevAux]
  | cons x xs ih =>
    by_cases hx : x ≥ lastv <;> simp [maskRevAux, hx, ih]

/-- Over the reversed tail (newest row first), the rows kept by the
backward scan are strictly decreasing and all lie strictly below the
running `last` value. -/
theorem maskRev_kept (lastv : Int) (rest : List Int) :
    (∀ y ∈ applyMask (maskRevAux lastv rest) rest, y < lastv)
      ∧ (applyMask (maskRevAux lastv rest) rest).Chain' (fun a b => b < a) := by
  induction rest generalizing lastv with
  | nil => simp [maskRevAux, applyMask]
  | cons x xs ih =>
    by_cases hx : x ≥ lastv
    · have hstep : applyMask (maskRevAux lastv (x :: xs)) (x :: xs)
          = applyMask (maskRevAux lastv xs) xs := by
        simp [maskRevAux, hx, applyMask]
      rw [hstep]
      exact ih lastv
    · have hstep : applyMask (maskRevAux lastv (x :: xs)) (x :: xs)
          = x :: applyMask (maskRevAux x xs) xs := by
        simp [maskRevAux, hx, applyMask]
      rw [hstep]
      obtain ⟨hlt, hch⟩ := ih x
      push_neg at hx
      constructor
      · intro y hy
        rcases List.mem_cons.mp hy with hy | hy
        · exact hy ▸ hx
        · exact (hlt y hy).trans hx
      · refine List.chain'_cons'.mpr ⟨?_, hch⟩
        intro y hy
        exact hlt y (List.mem_of_mem_head? hy)

theorem computeMask_eq {ms : List Int} {lastv : Int} {rest : List Int}
    (h : ms.reverse = lastv :: rest) :
    computeMask ms = (maskRevAux lastv rest).reverse ++ [false] := by
  rw [computeMask, h]

theorem self_eq_of_reverse_cons {ms : List Int} {lastv : Int} {rest : List Int}
    (h : ms.reverse = lastv :: rest) : ms = rest.reverse ++ [lastv] := by
  have := congrArg List.reverse h
  simpa using this

/-- The rows the mask keeps, in file order: the kept reversed-tail
rows reversed, followed by the last row. -/
theorem applyMask_computeMask {ms : List Int} {lastv : Int} {rest : List Int}
    (h : ms.reverse = lastv :: rest) :
    applyMask (computeMask ms) ms
      = (applyMask (maskRevAux lastv rest) rest).reverse ++ [lastv] := by
  rw [computeMask_eq h, self_eq_of_reverse_cons h]
  have hlen : (maskRevAux lastv rest).reverse.length = rest.reverse.length := by
    simp [maskRevAux_length]
  rw [applyMask_append hlen]
  rw [applyMask_reverse (by simp [maskRevAux_length])]
  simp [applyMask]

/-- Core correctness of the deduplication pass on a non-empty ordering
column: the kept rows are strictly increasing in file order, the last
row is kept (the kept and raw columns have the same final entry), and
the kept rows are a sublist (order-preserving selection) of the raw
rows. -/
theorem dedup_kept_spec {ms : List Int} (hne : ms ≠ []) :
    (applyMask (computeMask ms) ms).Chain' (· < ·)
      ∧ (applyMask (computeMask ms) ms).getLast? = ms.getLast?
      ∧ (applyMask (computeMask ms) ms).Sublist ms := by
  obtain ⟨lastv, rest, h⟩ : ∃ lastv rest, ms.reverse = lastv :: rest := by
    cases hr : ms.reverse with
    | nil => exact absurd (by simpa using congrArg List.reverse hr) hne
    | cons a l => exact ⟨a, l, rfl⟩
  set K := applyMask (maskRevAux lastv rest) rest with hK
  obtain ⟨hlt, hch⟩ := maskRev_kept lastv rest
  rw [applyMask_computeMask h]
  refine ⟨?_, ?_, ?_⟩
  · rw [List.chain'_append]
    refine ⟨?_, by simp, ?_⟩
    · rw [List.chain'_reverse]
      exact hch
    · intro x hx y hy
      simp only [List.head?_cons, Option.mem_def, Option.some.injEq] at hy
      subst hy
      rw [List.getLast?_reverse] at hx
      exact hlt x (List.mem_of_mem_head? hx)
  · rw [self_eq_of_reverse_cons h]
    simp
  · rw [self_eq_of_reverse_cons h]
    refine List.Sublist.append ?_ (List.Sublist.refl _)
    exact List.Sublist.reverse (applyMask_sublist _ _)

/-! ### Masking-the-whole-table lemmas -/

theorem maskAllCols_not_mem {mask : List Bool} {ns : List String}
    {d d' : List (String × NDArray)} {k : String} (hk : k ∉ ns) :
    maskAllCols mask ns d = .ok d' → dictGet k d' = dictGet k d := by
  induction ns generalizing d with
  | nil => intro h; simp only [maskAllCols] at h; cases h; rfl
  | cons n ns ih =>
    intro h
    have hne : n ≠ k := fun hnk => hk (hnk ▸ List.mem_cons_self _ _)
    have hk' : k ∉ ns := fun hmem => hk (List.mem_cons_of_mem _ hmem)
    simp only [maskAllCols] at h
    cases hg : dictGet n d with
    | none => rw [hg] at h; dsimp only at h; cases h
    | some nd =>
      rw [hg] at h; dsimp only at h
      cases hc : maskedCompress mask nd with
      | error e => rw [hc] at h; dsimp only at h; cases h
      | ok nd' =>
        rw [hc] at h; dsimp only at h
        have := ih hk' h
        rw [this, dictGet_dictInsert, if_neg hne]

/-- Once a column already holds the masked value of a full-length
column, further passes of the masking loop leave it unchanged
(re-masking only succeeds when the mask removes nothing). -/
theorem maskAllCols_stable {mask : List Bool} {ns : List String}
    {d d' : List (String × NDArray)} {k : String} {xs : List Int}
    (hxs : xs.length = mask.length) :
    maskAllCols mask ns d = .ok d' →
    dictGet k d = some (.vec (applyMask mask xs)) →
    dictGet k d' = some (.vec (applyMask mask xs)) := by
  induction ns generalizing d with
  | nil => intro h hv; simp only [maskAllCols] at h; cases h; exact hv
  | cons n ns ih =>
    intro h hv
    simp only [maskAllCols] at h
    by_cases hnk : n = k
    · subst hnk
      rw [hv] at h; dsimp only at h
      simp only [maskedCompress] at h
      by_cases hlen : (applyMask mask xs).length = mask.length
      · rw [if_pos hlen] at h; dsimp only at h
        have hall : ∀ b ∈ mask, b = false := applyMask_full_length hxs hlen
        have hid : applyMask mask (applyMask mask xs) = applyMask mask xs :=
          applyMask_all_false hall hlen
        rw [hid] at h
        exact ih h (by rw [dictGet_dictInsert, if_pos rfl])
      · rw [if_neg hlen] at h; dsimp only at h; cases h
    · cases hg : dictGet n d with
      | none => rw [hg] at h; dsimp only at h; cases h
      | some nd =>
        rw [hg] at h; dsimp only at h
        cases hc : maskedCompress mask nd with
        | error e => rw [hc] at h; dsimp only at h; cases h
        | ok nd' =>
          rw [hc] at h; dsimp only at h
          exact ih h (by rw [dictGet_dictInsert, if_neg hnk]; exact hv)

/-- Applying the masking loop to every column name replaces a raw
column present under a processed name by its masked value. -/
theorem maskAllCols_mem {mask : List Bool} {ns : List String}
    {d d' : List (String × NDArray)} {k : String} {xs : List Int} (hk : k ∈ ns) :
    maskAllCols mask ns d = .ok d' →
    dictGet k d = some (.vec xs) →
    dictGet k d' = some (.vec (applyMask mask xs)) := by
  induction ns generalizing d with
  | nil => cases hk
  | cons n ns ih =>
    intro h hv
    simp only [maskAllCols] at h
    by_cases hnk : n = k
    · subst hnk
      rw [hv] at h; dsimp only at h
      simp only [maskedCompress] at h
      by_cases hlen : xs.length = mask.length
      · rw [if_pos hlen] at h; dsimp only at h
        by_cases hkns : n ∈ ns
        · exact maskAllCols_stable hlen h (by rw [dictGet_dictInsert, if_pos rfl])
        · rw [maskAllCols_not_mem hkns h, dictGet_dictInsert, if_pos rfl]
      · rw [if_neg hlen] at h; dsimp only at h; cases h
    · have hkns : k ∈ ns := by
        rcases List.mem_cons.mp hk with h' | h'
        · exact absurd h'.symm hnk
        · exact h'
      cases hg : dictGet n d with
      | none => rw [hg] at h; dsimp only at h; cases h
      | some nd =>
        rw [hg] at h; dsimp only at h
        cases hc : maskedCompress mask nd with
        | error e => rw [hc] at h; dsimp only at h; cases h
        | ok nd' =>
          rw [hc] at h; dsimp only at h
          exact ih hkns h (by rw [dictGet_dictInsert, if_neg hnk]; exact hv)

/-! ### Data-dictionary construction lemmas -/

theorem buildDataAux_keys {fd : NDArray} {ns : List String} {i : Nat}
    {acc d : List (String × NDArray)} {k : String} {v : NDArray} :
    buildDataAux fd ns i acc = .ok d → dictGet k d = some v →
    k ∈ ns ∨ (∃ w, dictGet k acc = some w) := by
  induction ns generalizing i acc with
  | nil =>
    intro h hg
    simp only [buildDataAux] at h
    cases h
    exact Or.inr ⟨v, hg⟩
  | cons n ns ih =>
    intro h hg
    simp only [buildDataAux] at h
    cases hc : ndIndexNat fd i with
    | error e => rw [hc] at h; dsimp only at h; cases h
    | ok c =>
      rw [hc] at h; dsimp only at h
      rcases ih h hg with h' | ⟨w, hw⟩
      · exact Or.inl (List.mem_cons_of_mem _ h')
      · rw [dictGet_dictInsert] at hw
        by_cases hnk : n = k
        · exact Or.inl (hnk ▸ List.mem_cons_self _ _)
        · rw [if_neg hnk] at hw
          exact Or.inr ⟨w, hw⟩

theorem buildDataAux_mem {fd : NDArray} {ns : List String} {i : Nat}
    {acc d : List (String × NDArray)} {p : String × NDArray} :
    buildDataAux fd ns i acc = .ok d → p ∈ d →
    p ∈ acc ∨ ∃ j, ndIndexNat fd j = .ok p.2 := by
  induction ns generalizing i acc with
  | nil =>
    intro h hp
    simp only [buildDataAux] at h
    cases h
    exact Or.inl hp
  | cons n ns ih =>
    intro h hp
    simp only [buildDataAux] at h
    cases hc : ndIndexNat fd i with
    | error e => rw [hc] at h; dsimp only at h; cases h
    | ok c =>
      rw [hc] at h; dsimp only at h
      rcases ih h hp with h' | h'
      · rcases mem_dictInsert h' with h'' | h''
        · exact Or.inr ⟨i, by rw [h'']; exact hc⟩
        · exact Or.inl h''
      · exact Or.inr h'

/-! ### Header construction lemmas -/

theorem buildHeaderAux_short {ns vs : List String} (acc : List (String × String))
    (h : vs.length < ns.length) : buildHeaderAux acc ns vs = .error .indexError := by
  induction ns generalizing vs acc with
  | nil => simp at h
  | cons n ns ih =>
    cases vs with
    | nil => rfl
    | cons v vs =>
      simp only [List.length_cons, Nat.succ_lt_succ_iff] at h
      exact ih (dictInsert acc n v) h

theorem buildHeaderAux_zip {ns vs : List String} (acc : List (String × String))
    (hnd : ns.Nodup) (hle : ns.length ≤ vs.length)
    (hfresh : ∀ n ∈ ns, dictGet n acc = none) :
    buildHeaderAux acc ns vs = .ok (acc ++ ns.zip vs) := by
  induction ns generalizing vs acc with
  | nil => simp [buildHeaderAux]
  | cons n ns ih =>
    cases vs with
    | nil => simp at hle
    | cons v vs =>
      simp only [List.length_cons, Nat.succ_le_succ_iff] at hle
      have hfr : dictGet n acc = none := hfresh n (List.mem_cons_self _ _)
      have hins : dictInsert acc n v = acc ++ [(n, v)] := dictInsert_fresh v hfr
      have hnd' : ns.Nodup := (List.nodup_cons.mp hnd).2
      have hnn : n ∉ ns := (List.nodup_cons.mp hnd).1
      have hfresh' : ∀ m ∈ ns, dictGet m (acc ++ [(n, v)]) = none := by
        intro m hm
        rw [dictGet_append]
        rw [hfresh m (List.mem_cons_of_mem _ hm)]
        have : n ≠ m := fun hnm => hnn (hnm ▸ hm)
        simp [dictGet, this]
      have := ih (acc ++ [(n, v)]) hnd' hle hfresh'
      simp only [buildHeaderAux, hins, this, List.append_assoc, List.zip_cons_cons,
        List.singleton_append]

theorem buildHeaderAux_error_eq {ns vs : List String} {acc : List (String × String)}
    {e : Err} (h : buildHeaderAux acc ns vs = .error e) : e = .indexError := by
  induction ns generalizing vs acc with
  | nil => simp only [buildHeaderAux] at h; cases h
  | cons n ns ih =>
    cases vs with
    | nil => simp only [buildHeaderAux] at h; cases h; rfl
    | cons v vs => exact ih h

/-! ### Error classification lemmas -/

theorem loadtxtRows_error_eq {lines : List String} {e : Err}
    (h : loadtxtRows lines = .error e) : e = .valueError := by
  unfold loadtxtRows at h
  cases hm : (dataTokenLines lines).mapM parseRowTokens with
  | none => rw [hm] at h; dsimp only at h; cases h; rfl
  | some rows =>
    rw [hm] at h
    cases rows with
    | nil => dsimp only at h; cases h
    | cons r rest =>
      dsimp only at h
      by_cases hr : rest.all (fun q => q.length == r.length)
      · rw [if_pos hr] at h; cases h
      · rw [if_neg hr] at h; cases h; rfl

theorem npLoadtxtUnpack_error_eq {lines : List String} {e : Err}
    (h : npLoadtxtUnpack lines = .error e) : e = .valueError := by
  unfold npLoadtxtUnpack at h
  cases hl : loadtxtRows lines with
  | error e' =>
    rw [hl] at h; dsimp only at h; cases h
    exact loadtxtRows_error_eq hl
  | ok rows =>
    rw [hl] at h
    match rows with
    | [] => dsimp only at h; cases h
    | [r] =>
      dsimp only at h
      match r with
      | [] => dsimp only at h; cases h
      | [v] => dsimp only at h; cases h
      | v :: w :: t => dsimp only at h; cases h
    | r :: r' :: rest =>
      dsimp only at h
      by_cases hr : r.length = 1
      · rw [if_pos hr] at h; cases h
      · rw [if_neg hr] at h; cases h

theorem ndIndexNat_error_eq {fd : NDArray} {i : Nat} {e : Err}
    (h : ndIndexNat fd i = .error e) : e = .indexError := by
  unfold ndIndexNat at h
  cases fd with
  | scalar v => cases h; rfl
  | vec xs =>
    dsimp only at h
    cases hx : xs.get? i with
    | none => rw [hx] at h; dsimp only at h; cases h; rfl
    | some v => rw [hx] at h; dsimp only at h; cases h
  | mat rows =>
    dsimp only at h
    cases hx : rows.get? i with
    | none => rw [hx] at h; dsimp only at h; cases h; rfl
    | some r => rw [hx] at h; dsimp only at h; cases h

theorem buildDataAux_error_eq {fd : NDArray} {ns : List String} {i : Nat}
    {acc : List (String × NDArray)} {e : Err}
    (h : buildDataAux fd ns i acc = .error e) : e = .indexError := by
  induction ns generalizing i acc with
  | nil => simp only [buildDataAux] at h; cases h
  | cons n ns ih =>
    simp only [buildDataAux] at h
    cases hc : ndIndexNat fd i with
    | error e' =>
      rw [hc] at h; dsimp only at h; cases h
      exact ndIndexNat_error_eq hc
    | ok c =>
      rw [hc] at h; dsimp only at h
      exact ih h

theorem stageParse_error_parse {gz : Bool} {lines : List String} {e : Err}
    (h : stageParse gz lines = .error e) : isParseErr e = true := by
  unfold stageParse at h
  cases hh : buildHeader (headerNamesOf gz lines) (headerValuesOf gz lines) with
  | error e' =>
    rw [hh] at h; dsimp only at h; cases h
    rw [buildHeaderAux_error_eq hh]; rfl
  | ok header =>
    rw [hh] at h; dsimp only at h
    cases hu : npLoadtxtUnpack (lines.drop 6) with
    | error e' =>
      rw [hu] at h; dsimp only at h; cases h
      rw [npLoadtxtUnpack_error_eq hu]; rfl
    | ok fd =>
      rw [hu] at h; dsimp only at h
      cases hb : buildData fd (colNamesOf gz lines) with
      | error e' =>
        rw [hb] at h; dsimp only at h; cases h
        rw [buildDataAux_error_eq hb]; rfl
      | ok d => rw [hb] at h; dsimp only at h; cases h

theorem maskAllCols_error_parse {mask : List Bool} {ns : List String}
    {d : List (String × NDArray)} {e : Err}
    (h : maskAllCols mask ns d = .error e) : isParseErr e = true := by
  induction ns generalizing d with
  | nil => simp only [maskAllCols] at h; cases h
  | cons n ns ih =>
    simp only [maskAllCols] at h
    cases hg : dictGet n d with
    | none => rw [hg] at h; dsimp only at h; cases h; rfl
    | some nd =>
      rw [hg] at h; dsimp only at h
      cases hc : maskedCompress mask nd with
      | error e' =>
        rw [hc] at h; dsimp only at h; cases h
        unfold maskedCompress at hc
        cases nd with
        | scalar v => cases hc; rfl
        | vec xs =>
          dsimp only at hc
          by_cases hlen : xs.length = mask.length
          · rw [if_pos hlen] at hc; cases hc
          · rw [if_neg hlen] at hc; cases hc; rfl
        | mat rows => cases hc; rfl
      | ok nd' =>
        rw [hc] at h; dsimp only at h
        exact ih h

theorem stageDedup_error_parse {cns : List String} {d : List (String × NDArray)}
    {e : Err} (h : stageDedup cns d = .error e) : isParseErr e = true := by
  unfold stageDedup at h
  cases hm : dedupMask d with
  | error e' =>
    rw [hm] at h; dsimp only at h; cases h
    unfold dedupMask at hm
    cases hg : dictGet "model_number" d with
    | none => rw [hg] at hm; dsimp only at hm; cases hm; rfl
    | some nd =>
      rw [hg] at hm
      cases nd with
      | scalar v => dsimp only at hm; cases hm; rfl
      | vec xs =>
        dsimp only at hm
        cases hx : xs.getLast? with
        | none => rw [hx] at hm; dsimp only at hm; cases hm; rfl
        | some lastv => rw [hx] at hm; dsimp only at hm; cases hm
      | mat rows => dsimp only at hm; cases hm; rfl
  | ok mask =>
    rw [hm] at h; dsimp only at h
    exact maskAllCols_error_parse h

/-! ### `loadFile` unfolding lemmas -/

theorem loadFile_eq {fs : FS} {filename fname : String} {gz : Bool}
    {lines : List String} (pd : Bool)
    (hres : resolvePath fs filename = .ok (fname, gz))
    (hlines : listLookup fs fname = some lines) :
    loadFile fs filename pd =
      match stageParse gz lines with
      | .error e => .error e
      | .ok (header, cns, d) =>
        if strContainsSub fname "history" then
          match stageDedup cns d with
          | .error e => .error e
          | .ok d' => .ok ⟨fname, header, d'⟩
        else .ok ⟨fname, header, d⟩ := by
  unfold loadFile
  rw [hres]
  dsimp only
  rw [hlines]
  rfl

theorem stageParse_ok_inv {gz : Bool} {lines : List String}
    {hdr : List (String × String)} {cns : List String}
    {d : List (String × NDArray)}
    (h : stageParse gz lines = .ok (hdr, cns, d)) :
    cns = colNamesOf gz lines
      ∧ buildHeader (headerNamesOf gz lines) (headerValuesOf gz lines) = .ok hdr
      ∧ ∃ fd, npLoadtxtUnpack (lines.drop 6) = .ok fd
          ∧ buildData fd (colNamesOf gz lines) = .ok d := by
  unfold stageParse at h
  cases hh : buildHeader (headerNamesOf gz lines) (headerValuesOf gz lines) with
  | error e => rw [hh] at h; dsimp only at h; cases h
  | ok header =>
    rw [hh] at h; dsimp only at h
    cases hu : npLoadtxtUnpack (lines.drop 6) with
    | error e => rw [hu] at h; dsimp only at h; cases h
    | ok fd =>
      rw [hu] at h; dsimp only at h
      cases hb : buildData fd (colNamesOf gz lines) with
      | error e => rw [hb] at h; dsimp only at h; cases h
      | ok d0 =>
        rw [hb] at h; dsimp only at h
        cases h
        exact ⟨rfl, rfl, fd, rfl, hb⟩

/-! ### Substring invariance under the `.gz` suffix -/

theorem startsWithSeq_append_dotgz :
    ∀ (l hs : List Char), ('.' : Char) ∉ hs →
      startsWithSeq hs (l ++ ['.', 'g', 'z']) = startsWithSeq hs l := by
  intro l
  induction l with
  | nil =>
    intro hs hdot
    cases hs with
    | nil => rfl
    | cons c cs =>
      have hc : c ≠ '.' := fun h => hdot (h ▸ List.mem_cons_self _ _)
      simp [startsWithSeq, hc]
  | cons a l ih =>
    intro hs hdot
    cases hs with
    | nil => rfl
    | cons c cs =>
      have hdot' : ('.' : Char) ∉ cs := fun h => hdot (List.mem_cons_of_mem _ h)
      simp [startsWithSeq, ih cs hdot']

/-- Appending the compression suffix cannot create or destroy an
occurrence of `history` (the suffix is shorter than the word and the
word contains no dot). -/
theorem containsSeq_history_append_dotgz :
    ∀ l : List Char,
      containsSeq "history".toList (l ++ ['.', 'g', 'z'])
        = containsSeq "history".toList l := by
  intro l
  induction l with
  | nil => decide
  | cons a l ih =>
    have hdot : ('.' : Char) ∉ "history".toList := by decide
    show containsSeq "history".toList ((a :: l) ++ ['.', 'g', 'z'])
        = containsSeq "history".toList (a :: l)
    rw [show (a :: l) ++ ['.', 'g', 'z'] = a :: (l ++ ['.', 'g', 'z']) from rfl]
    simp only [containsSeq]
    rw [show a :: (l ++ ['.', 'g', 'z']) = (a :: l) ++ ['.', 'g', 'z'] from rfl]
    rw [startsWithSeq_append_dotgz (a :: l) _ hdot, ih]

theorem strContainsSub_append_gz (s : String) :
    strContainsSub (s ++ ".gz") "history" = strContainsSub s "history" := by
  unfold strContainsSub
  have h : (s ++ ".gz").toList = s.toList ++ ['.', 'g', 'z'] := by
    show (s ++ ".gz").data = s.data ++ ['.', 'g', 'z']
    rw [String.data_append]
  rw [h, containsSeq_history_append_dotgz]

/-! ### The gzip branch tokenizes identically to the plain branch -/

theorem readTokens_eq (gz : Bool) (s : String) : readTokens gz s = pySplit s := by
  cases gz
  · rfl
  · show List.map decodeUtf8 (pySplit s) = pySplit s
    exact List.map_id _

theorem stageParse_gz_eq (gz : Bool) (lines : List String) :
    stageParse gz lines = stageParse false lines := by
  unfold stageParse buildHeader headerNamesOf headerValuesOf colNamesOf
  simp only [readTokens_eq]

/-! ### Forward composition lemmas for `loadFile` -/

theorem loadFile_ok_profile {fs : FS} {filename fname : String} {gz : Bool}
    {lines : List String} {hdr : List (String × String)} {cns : List String}
    {d : List (String × NDArray)} (pd : Bool)
    (hres : resolvePath fs filename = .ok (fname, gz))
    (hlines : listLookup fs fname = some lines)
    (hparse : stageParse gz lines = .ok (hdr, cns, d))
    (hprof : strContainsSub fname "history" = false) :
    loadFile fs filename pd = .ok ⟨fname, hdr, d⟩ := by
  rw [loadFile_eq pd hres hlines, hparse]
  simp [hprof]

theorem loadFile_ok_history {fs : FS} {filename fname : String} {gz : Bool}
    {lines : List String} {hdr : List (String × String)} {cns : List String}
    {d d' : List (String × NDArray)} (pd : Bool)
    (hres : resolvePath fs filename = .ok (fname, gz))
    (hlines : listLookup fs fname = some lines)
    (hparse : stageParse gz lines = .ok (hdr, cns, d))
    (hhist : strContainsSub fname "history" = true)
    (hdedup : stageDedup cns d = .ok d') :
    loadFile fs filename pd = .ok ⟨fname, hdr, d'⟩ := by
  rw [loadFile_eq pd hres hlines, hparse]
  simp [hhist, hdedup]

theorem loadFile_error_parse_stage {fs : FS} {filename fname : String} {gz : Bool}
    {lines : List String} {e : Err} (pd : Bool)
    (hres : resolvePath fs filename = .ok (fname, gz))
    (hlines : listLookup fs fname = some lines)
    (hparse : stageParse gz lines = .error e) :
    loadFile fs filename pd = .error e := by
  rw [loadFile_eq pd hres hlines, hparse]

theorem loadFile_error_dedup {fs : FS} {filename fname : String} {gz : Bool}
    {lines : List String} {hdr : List (String × String)} {cns : List String}
    {d : List (String × NDArray)} {e : Err} (pd : Bool)
    (hres : resolvePath fs filename = .ok (fname, gz))
    (hlines : listLookup fs fname = some lines)
    (hparse : stageParse gz lines = .ok (hdr, cns, d))
    (hhist : strContainsSub fname "history" = true)
    (hdedup : stageDedup cns d = .error e) :
    loadFile fs filename pd = .error e := by
  rw [loadFile_eq pd hres hlines, hparse]
  simp [hhist, hdedup]

/-! ### Claim theorems -/

/-- C2: on a history file whose ordering column is
`[1,2,3,4,2,3,4,5,6]`, the deduplication pass discards exactly the rows
at indices 1, 2 and 3 (values 2, 3, 4) — the mask is `true` precisely
there — and retains rows 0, 4, 5, 6, 7, 8 in their original order, so
the kept ordering values are `[1,2,3,4,5,6]` (and the companion column
keeps exactly the same row positions). -/
theorem C2_concrete_restart_dedup :
    computeMask [1, 2, 3, 4, 2, 3, 4, 5, 6]
        = [false, true, true, true, false, false, false, false, false]
    ∧ loadFile fsC2 "history.data" true
        = .ok ⟨"history.data", [("star_mass", "1")],
            [("model_number", .vec [1, 2, 3, 4, 5, 6]),
             ("star_age", .vec [10, 21, 31, 41, 51, 61])]⟩ :=
  ⟨rfl, rfl⟩

/-- C10: the `prune_data` constructor parameter is never read by the
loader body, so loading with `prune_data=True` and `prune_data=False`
yields identical results on every file system and filename (in
particular the dedupli­cation pass runs for history files under both). -/
theorem C10_prune_data_no_effect (fs : FS) (filename : String) :
    loadFile fs filename true = loadFile fs filename false := rfl

/-- C6: the removal mask is a function of the ordering column alone:
any two parsed tables holding the same `model_number` sequence receive
the same mask (and hence the same set of discarded row indices), no
matter what the other columns hold. -/
theorem C6_mask_depends_only_on_ordering (d1 d2 : List (String × NDArray))
    (xs : List Int)
    (h1 : dictGet "model_number" d1 = some (.vec xs))
    (h2 : dictGet "model_number" d2 = some (.vec xs)) :
    dedupMask d1 = dedupMask d2 := by
  unfold dedupMask
  rw [h1, h2]

/-- C6 witness: two concrete tables sharing the ordering column
`[1, 2]` but with entirely different companion columns get equal
masks. -/
theorem C6_witness :
    dictGet "model_number" dExA = some (NDArray.vec [1, 2])
    ∧ dictGet "model_number" dExB = some (NDArray.vec [1, 2])
    ∧ dedupMask dExA = dedupMask dExB :=
  ⟨rfl, rfl, C6_mask_depends_only_on_ordering dExA dExB [1, 2] rfl rfl⟩

/-- C7 counterexample: when neither the plain nor the compressed path
exists the loader does fail with the `NotFound` error, but the error is
raised bare and does not name the requested filename, contrary to the
claim. -/
theorem C7_counterexample_error_lacks_filename :
    loadFile ([] : FS) "star.log" true = .error (.fileNotFound none)
    ∧ Err.fileNotFound none ≠ Err.fileNotFound (some "star.log") :=
  ⟨rfl, by decide⟩

/-- C7 (amended): path resolution tries the exact path first and uses
it uncompressed; otherwise the path with `'.gz'` appended, flagged
compressed; otherwise it fails with a bare `NotFound` error that does
not carry the filename.  No partial matches, no directory search. -/
theorem C7_resolution_contract_amended (fs : FS) (filename : String) :
    (∀ lines, listLookup fs filename = some lines →
        resolvePath fs filename = .ok (filename, false))
    ∧ (listLookup fs filename = none →
        ∀ lines, listLookup fs (filename ++ ".gz") = some lines →
          resolvePath fs filename = .ok (filename ++ ".gz", true))
    ∧ (listLookup fs filename = none →
        listLookup fs (filename ++ ".gz") = none →
          resolvePath fs filename = .error (.fileNotFound none)) := by
  refine ⟨?_, ?_, ?_⟩
  · intro lines h
    simp [resolvePath, h]
  · intro h lines h2
    simp [resolvePath, h, h2]
  · intro h h2
    simp [resolvePath, h, h2]

/-- C7 witness: the three branches of the resolution contract at
concrete file systems. -/
theorem C7_witness :
    resolvePath fsC7a "a.log" = .ok ("a.log", false)
    ∧ resolvePath fsC7b "b.log" = .ok ("b.log.gz", true)
    ∧ resolvePath ([] : FS) "c.log" = .error (.fileNotFound none) :=
  ⟨(C7_resolution_contract_amended fsC7a "a.log").1 ["x"] rfl,
   (C7_resolution_contract_amended fsC7b "b.log").2.1 rfl ["x"] rfl,
   (C7_resolution_contract_amended ([] : FS) "c.log").2.2 rfl rfl⟩

/-- C5: contrary to the claim that the dedup pass is a no-op on
history tables with zero or one row, loading such files fails with an
`IndexError`: `numpy.loadtxt` squeezes the table to a 1-D (zero rows)
or 0-d-per-column (one row) array, and either the per-column indexing
or `models_number[-1]` then raises. -/
theorem C5_short_history_table_raises :
    loadFile fsOneRow "history1.data" true = .error .indexError
    ∧ loadFile fsZeroRow "history0.data" true = .error .indexError :=
  ⟨rfl, rfl⟩

/-- C3 counterexample: a header value line with more tokens than the
header name line does not make loading fail — the extra value is
silently ignored and the file loads successfully. -/
theorem C3_counterexample_extra_values_no_error :
    (headerNamesOf false (["banner", "a", "1 2", "", "cols", "c1 c2", "1 2", "3 4"])).length = 1
    ∧ (headerValuesOf false (["banner", "a", "1 2", "", "cols", "c1 c2", "1 2", "3 4"])).length = 2
    ∧ loadFile fsC3x "p3.data" true
        = .ok ⟨"p3.data", [("a", "1")],
            [("c1", NDArray.vec [1, 3]), ("c2", NDArray.vec [2, 4])]⟩ :=
  ⟨rfl, rfl, rfl⟩

/-- C3 (amended): if the header name line has more tokens than the
header value line, loading fails (with the `IndexError` that the spec
taxonomy classifies as a ParseError); when the name count does not
exceed the value count (and the names are distinct, as the spec's
Header invariant requires) the names are zipped positionally with the
values, stored as raw strings; extra values are silently ignored. -/
theorem C3_header_mismatch_amended (gz : Bool) (lines : List String) :
    ((headerValuesOf gz lines).length < (headerNamesOf gz lines).length →
      buildHeader (headerNamesOf gz lines) (headerValuesOf gz lines)
          = .error .indexError
      ∧ ∀ (fs : FS) (filename fname : String) (pd : Bool),
          resolvePath fs filename = .ok (fname, gz) →
          listLookup fs fname = some lines →
          loadFile fs filename pd = .error .indexError)
    ∧ ((headerNamesOf gz lines).Nodup →
       (headerNamesOf gz lines).length ≤ (headerValuesOf gz lines).length →
       buildHeader (headerNamesOf gz lines) (headerValuesOf gz lines)
         = .ok ((headerNamesOf gz lines).zip (headerValuesOf gz lines))) := by
  constructor
  · intro hlt
    have hbh : buildHeader (headerNamesOf gz lines) (headerValuesOf gz lines)
        = .error .indexError := buildHeaderAux_short [] hlt
    refine ⟨hbh, ?_⟩
    intro fs filename fname pd hres hlines
    have hsp : stageParse gz lines = .error .indexError := by
      unfold stageParse
      rw [hbh]
    exact loadFile_error_parse_stage pd hres hlines hsp
  · intro hnd hle
    exact buildHeaderAux_zip [] hnd hle (fun n _ => rfl)

/-- C3 witness: the amended behaviour at concrete inputs — a file with
two header names and one value fails with `IndexError`, and two
distinct names with two values zip positionally. -/
theorem C3_witness :
    loadFile fsC3w "w3.data" true = .error .indexError
    ∧ buildHeader (headerNamesOf false linesC3z) (headerValuesOf false linesC3z)
        = .ok ((headerNamesOf false linesC3z).zip (headerValuesOf false linesC3z)) :=
  ⟨((C3_header_mismatch_amended false linesC3w).1 (by decide)).2
      fsC3w "w3.data" "w3.data" true rfl rfl,
   (C3_header_mismatch_amended false linesC3z).2 (by decide) (by decide)⟩

/-- C1: for every history-kind file the loader builds a table for, the
deduplication pass keeps the last row, and after the mask has been
applied to every column the exposed `model_number` column is the
mask-filtered raw column, strictly increasing when read forward, with
the relative order of kept rows preserved (it is a sublist of the raw
column) and its final entry equal to the raw column's final entry. -/
theorem C1_history_dedup_strict_increase {fs : FS} {filename fname : String}
    {gz : Bool} {lines : List String} {hdr : List (String × String)}
    {cns : List String} {d dd : List (String × NDArray)} {raw : List Int} (pd : Bool)
    (hres : resolvePath fs filename = .ok (fname, gz))
    (hlines : listLookup fs fname = some lines)
    (hparse : stageParse gz lines = .ok (hdr, cns, d))
    (hraw : dictGet "model_number" d = some (.vec raw))
    (hhist : strContainsSub fname "history" = true)
    (hdedup : stageDedup cns d = .ok dd) :
    loadFile fs filename pd = .ok ⟨fname, hdr, dd⟩
    ∧ dictGet "model_number" dd = some (.vec (applyMask (computeMask raw) raw))
    ∧ (applyMask (computeMask raw) raw).Chain' (· < ·)
    ∧ (applyMask (computeMask raw) raw).getLast? = raw.getLast?
    ∧ (applyMask (computeMask raw) raw).Sublist raw := by
  have hkey : raw ≠ [] ∧ maskAllCols (computeMask raw) cns d = .ok dd := by
    unfold stageDedup dedupMask at hdedup
    rw [hraw] at hdedup
    dsimp only at hdedup
    cases hl : raw.getLast? with
    | none => rw [hl] at hdedup; dsimp only at hdedup; cases hdedup
    | some lastv =>
      rw [hl] at hdedup; dsimp only at hdedup
      refine ⟨?_, hdedup⟩
      intro hnil
      rw [hnil] at hl
      simp at hl
  obtain ⟨hne, hmac⟩ := hkey
  obtain ⟨hcns, -, fd, -, hB⟩ := stageParse_ok_inv hparse
  have hmem : "model_number" ∈ cns := by
    rcases buildDataAux_keys hB hraw with hm | ⟨w, hw⟩
    · rw [hcns]; exact hm
    · simp [dictGet] at hw
  obtain ⟨hch, hlast, hsub⟩ := dedup_kept_spec hne
  exact ⟨loadFile_ok_history pd hres hlines hparse hhist hdedup,
         maskAllCols_mem hmem hmac hraw, hch, hlast, hsub⟩

/-- C1 witness: the property at a concrete history file whose raw
ordering column is `[1, 2, 3, 2, 4]` (the pass drops rows 1 and 2,
keeping `[1, 2, 4]`). -/
theorem C1_witness :
    loadFile fsC1w "history_w.data" false
        = .ok ⟨"history_w.data", [("a", "1")],
            [("model_number", NDArray.vec [1, 2, 4]),
             ("star_age", NDArray.vec [1, 4, 5])]⟩
    ∧ dictGet "model_number"
        [("model_number", NDArray.vec [1, 2, 4]), ("star_age", NDArray.vec [1, 4, 5])]
        = some (NDArray.vec (applyMask (computeMask [1, 2, 3, 2, 4]) [1, 2, 3, 2, 4]))
    ∧ (applyMask (computeMask [1, 2, 3, 2, 4]) [1, 2, 3, 2, 4]).Chain' (· < ·)
    ∧ (applyMask (computeMask [1, 2, 3, 2, 4]) [1, 2, 3, 2, 4]).getLast?
        = ([1, 2, 3, 2, 4] : List Int).getLast?
    ∧ (applyMask (computeMask [1, 2, 3, 2, 4]) [1, 2, 3, 2, 4]).Sublist
        [1, 2, 3, 2, 4] :=
  C1_history_dedup_strict_increase false rfl rfl rfl rfl rfl rfl

/-- C4: a file whose resolved name contains `history` but whose column
schema has no `model_number` column never loads successfully: the
loader fails with an error in the spec's ParseError class (concretely
the `KeyError` from `data_dict['model_number']`, or an earlier parse
failure), rather than silently skipping the deduplication pass. -/
theorem C4_history_missing_ordering_fails {fs : FS} {filename fname : String}
    {gz : Bool} {lines : List String} (pd : Bool)
    (hres : resolvePath fs filename = .ok (fname, gz))
    (hlines : listLookup fs fname = some lines)
    (hhist : strContainsSub fname "history" = true)
    (hcol : "model_number" ∉ colNamesOf gz lines) :
    ∃ e, loadFile fs filename pd = .error e ∧ isParseErr e = true := by
  cases hp : stageParse gz lines with
  | error e =>
    exact ⟨e, loadFile_error_parse_stage pd hres hlines hp, stageParse_error_parse hp⟩
  | ok t =>
    obtain ⟨hdr, cns, d⟩ := t
    obtain ⟨hcns, -, fd, -, hB⟩ := stageParse_ok_inv hp
    have hget : dictGet "model_number" d = none := by
      cases hg : dictGet "model_number" d with
      | none => rfl
      | some v =>
        rcases buildDataAux_keys hB hg with hm | ⟨w, hw⟩
        · exact absurd hm hcol
        · simp [dictGet] at hw
    have hded : stageDedup cns d = .error (.keyError "model_number") := by
      have h1 : dedupMask d = .error (.keyError "model_number") := by
        unfold dedupMask
        rw [hget]
      unfold stageDedup
      rw [h1]
    exact ⟨.keyError "model_number",
           loadFile_error_dedup pd hres hlines hp hhist hded, rfl⟩

/-- C4 witness: a concrete history file whose columns are `c1 c2`
fails to load. -/
theorem C4_witness :
    ∃ e, loadFile fsC4 "historyX.data" true = .error e ∧ isParseErr e = true :=
  C4_history_missing_ordering_fails true rfl rfl rfl (by decide)

/-- Mapping a fallible function over a list preserves the length when
it succeeds. -/
theorem mapM_option_length {α β : Type} {f : α → Option β} :
    ∀ {l : List α} {l' : List β}, l.mapM f = some l' → l'.length = l.length := by
  intro l
  induction l with
  | nil =>
    intro l' h
    rw [List.mapM_nil] at h
    cases h
    rfl
  | cons a t ih =>
    intro l' h
    rw [List.mapM_cons] at h
    cases hf : f a with
    | none => rw [hf] at h; simp at h
    | some b =>
      rw [hf] at h
      cases hm : t.mapM f with
      | none => rw [hm] at h; simp at h
      | some bs =>
        rw [hm] at h
        simp only [Option.bind_eq_bind, Option.some_bind, Option.pure_def,
          Option.some.injEq] at h
        rw [← h]
        simp [ih hm]

/-- The parsed rows are exactly the non-blank data lines. -/
theorem loadtxtRows_length {lines : List String} {rows : List (List Int)}
    (h : loadtxtRows lines = .ok rows) :
    rows.length = (dataTokenLines lines).length := by
  unfold loadtxtRows at h
  cases hm : (dataTokenLines lines).mapM parseRowTokens with
  | none => rw [hm] at h; dsimp only at h; cases h
  | some rows' =>
    rw [hm] at h
    have hlen : rows'.length = (dataTokenLines lines).length := mapM_option_length hm
    cases rows' with
    | nil => dsimp only at h; cases h; exact hlen
    | cons r rest =>
      dsimp only at h
      by_cases hr : rest.all (fun q => q.length == r.length)
      · rw [if_pos hr] at h; cases h; exact hlen
      · rw [if_neg hr] at h; cases h

/-- C8 counterexample: a profile file with a single column and two
data rows loads successfully, but the exposed column is the 0-d scalar
holding only the first value — not the two-element sequence the
numeric table holds — because `numpy.loadtxt` squeezes a one-column
table to a 1-D array.  So the universal claim over all non-history
files fails. -/
theorem C8_counterexample_single_column :
    loadtxtRows ["10", "20"] = .ok [[10], [20]]
    ∧ loadFile fsC8 "profile1.data" true
        = .ok ⟨"profile1.data", [("a", "1")], [("temp", NDArray.scalar 10)]⟩
    ∧ NDArray.scalar 10 ≠ NDArray.vec [10, 20] :=
  ⟨rfl, rfl, by decide⟩

/-- C8 (amended): for every file whose resolved name lacks the
substring `history` and whose numeric table has at least two rows and
at least two columns, the deduplication pass is bypassed — the loader
exposes the parse-stage table unchanged — and every exposed column is
a 1-D sequence whose length equals the number of (non-blank) data
lines after line 5. -/
theorem C8_profile_no_dedup_amended {fs : FS} {filename fname : String}
    {gz : Bool} {lines : List String} {hdr : List (String × String)}
    {cns : List String} {d : List (String × NDArray)} {r r' : List Int}
    {rest : List (List Int)} (pd : Bool)
    (hres : resolvePath fs filename = .ok (fname, gz))
    (hlines : listLookup fs fname = some lines)
    (hprof : strContainsSub fname "history" = false)
    (hparse : stageParse gz lines = .ok (hdr, cns, d))
    (hrows : loadtxtRows (lines.drop 6) = .ok (r :: r' :: rest))
    (hcols : 2 ≤ r.length) :
    loadFile fs filename pd = .ok ⟨fname, hdr, d⟩
    ∧ (r :: r' :: rest).length = (dataTokenLines (lines.drop 6)).length
    ∧ ∀ p ∈ d, ∃ xs, p.2 = NDArray.vec xs
        ∧ xs.length = (r :: r' :: rest).length := by
  obtain ⟨hcns, -, fd, hU, hB⟩ := stageParse_ok_inv hparse
  have hfd : fd = .mat ((List.range r.length).map
      (fun i => (r :: r' :: rest).map (fun row => row.getD i 0))) := by
    unfold npLoadtxtUnpack at hU
    rw [hrows] at hU
    dsimp only at hU
    rw [if_neg (by omega)] at hU
    cases hU
    rfl
  refine ⟨loadFile_ok_profile pd hres hlines hparse hprof,
          loadtxtRows_length hrows, ?_⟩
  intro p hp
  rcases buildDataAux_mem hB hp with hacc | ⟨j, hj⟩
  · cases hacc
  · rw [hfd] at hj
    unfold ndIndexNat at hj
    dsimp only at hj
    cases hg : (((List.range r.length).map
        (fun i => (r :: r' :: rest).map (fun row => row.getD i 0)))).get? j with
    | none => rw [hg] at hj; dsimp only at hj; cases hj
    | some c =>
      rw [hg] at hj
      dsimp only at hj
      simp only [Except.ok.injEq] at hj
      have hc : c ∈ (List.range r.length).map
          (fun i => (r :: r' :: rest).map (fun row => row.getD i 0)) :=
        List.get?_mem hg
      rcases List.mem_map.mp hc with ⟨i, -, hi⟩
      exact ⟨c, hj.symm, by rw [← hi]; simp⟩

/-- C8 witness: a concrete two-column two-row profile file. -/
theorem C8_witness :
    loadFile fsC8w "profile2.data" true
        = .ok ⟨"profile2.data", [("a", "1")],
            [("c1", NDArray.vec [1, 3]), ("c2", NDArray.vec [2, 4])]⟩
    ∧ ([[1, 2], [3, 4]] : List (List Int)).length
        = (dataTokenLines ((["banner", "a", "1", "", "cols", "c1 c2", "1 2", "3 4"]).drop 6)).length
    ∧ ∀ p ∈ [("c1", NDArray.vec [1, 3]), ("c2", NDArray.vec [2, 4])],
        ∃ xs, p.2 = NDArray.vec xs
          ∧ xs.length = ([[1, 2], [3, 4]] : List (List Int)).length :=
  C8_profile_no_dedup_amended true rfl rfl rfl rfl rfl (by decide)

/-- C9: a plain file and a compressed file holding identical decoded
content parse to identical results: the same header mapping and the
same column table (loading may differ only in the recorded resolved
filename, which gains the `.gz` suffix). -/
theorem C9_plain_gzip_equal {fs1 fs2 : FS} {filename : String}
    {lines : List String} (pd1 pd2 : Bool)
    (h1 : listLookup fs1 filename = some lines)
    (h2 : listLookup fs2 filename = none)
    (h3 : listLookup fs2 (filename ++ ".gz") = some lines) :
    (loadFile fs1 filename pd1).map MesaInfo.header
        = (loadFile fs2 filename pd2).map MesaInfo.header
    ∧ (loadFile fs1 filename pd1).map MesaInfo.data_dict
        = (loadFile fs2 filename pd2).map MesaInfo.data_dict := by
  have hres1 : resolvePath fs1 filename = .ok (filename, false) := by
    simp [resolvePath, h1]
  have hres2 : resolvePath fs2 filename = .ok (filename ++ ".gz", true) := by
    simp [resolvePath, h2, h3]
  rw [loadFile_eq pd1 hres1 h1, loadFile_eq pd2 hres2 h3]
  rw [stageParse_gz_eq true lines, strContainsSub_append_gz]
  cases hp : stageParse false lines with
  | error e => exact ⟨rfl, rfl⟩
  | ok t =>
    obtain ⟨hdr, cns, d⟩ := t
    dsimp only
    by_cases hh : strContainsSub filename "history" = true
    · rw [if_pos hh, if_pos hh]
      cases stageDedup cns d with
      | error e => exact ⟨rfl, rfl⟩
      | ok d' => exact ⟨rfl, rfl⟩
    · rw [if_neg hh, if_neg hh]
      exact ⟨rfl, rfl⟩

/-- C9 witness: the same content stored plain and compressed produces
the same header and table. -/
theorem C9_witness :
    (loadFile fsC9a "p9.data" true).map MesaInfo.header
        = (loadFile fsC9b "p9.data" false).map MesaInfo.header
    ∧ (loadFile fsC9a "p9.data" true).map MesaInfo.data_dict
        = (loadFile fsC9b "p9.data" false).map MesaInfo.data_dict :=
  C9_plain_gzip_equal true false rfl rfl rfl

end Mesa
